import Mathlib

/- Verification development for the ore-cli mining client core
   (miraland-labs/ore-cli). The definitions below are a shallow
   embedding of the pure logic of src/mine.rs, src/busses.rs,
   src/dynamic_fee.rs, src/utils.rs and src/main.rs: machine
   integers are modelled as Nat/Int with explicit saturation and
   wrapping, the opaque hash primitive is a type parameter, and
   effectful loops are modelled as fueled recursions over oracle
   streams describing the external world. -/

/-- Largest value of a 64-bit unsigned integer (u64::MAX). -/
def U64MAX : Nat := 18446744073709551615

/-- Modulus of 64-bit unsigned arithmetic. -/
def U64MOD : Nat := 18446744073709551616

/-- Largest value of a 64-bit signed integer (i64::MAX). -/
def I64MAXi : Int := 9223372036854775807

/-- Smallest value of a 64-bit signed integer (i64::MIN). -/
def I64MINi : Int := -9223372036854775808

/-- Rust i64::saturating_add. -/
def satAddI64 (a b : Int) : Int := max I64MINi (min I64MAXi (a + b))

/-- Rust i64::saturating_sub. -/
def satSubI64 (a b : Int) : Int := max I64MINi (min I64MAXi (a - b))

/-- Rust `as i64` cast of a u64 value (two's-complement reinterpretation). -/
def u64AsI64 (x : Nat) : Int :=
  if x < 9223372036854775808 then (x : Int) else (x : Int) - 18446744073709551616

/-- Rust u64::saturating_add. -/
def satAddU64 (a b : Nat) : Nat := min (a + b) U64MAX

/-- Rust u64::saturating_mul. -/
def satMulU64 (a b : Nat) : Nat := min (a * b) U64MAX

/-- Rust u64::saturating_div, for a nonzero divisor (a zero divisor panics in Rust). -/
def satDivU64 (a b : Nat) : Nat := a / b

/-- Embedding of `Miner::get_cutoff` (src/mine.rs):
`proof.last_hash_at.saturating_add(60).saturating_sub(buffer_time as i64)
.saturating_sub(clock.unix_timestamp).max(0) as u64`. -/
def getCutoff (lastHashAt : Int) (bufferTime : Nat) (now : Int) : Nat :=
  (max (satSubI64 (satSubI64 (satAddI64 lastHashAt 60) (u64AsI64 bufferTime)) now) 0).toNat

theorem getCutoff_antitone_in_now (lastHashAt : Int) (bufferTime : Nat) (n1 n2 : Int)
    (h : n1 ≤ n2) :
    getCutoff lastHashAt bufferTime n2 ≤ getCutoff lastHashAt bufferTime n1 := by
  simp only [getCutoff, satSubI64, satAddI64, u64AsI64, I64MAXi, I64MINi]
  omega

/-- Claim C3 (amended): whenever no i64 saturation or u64-to-i64 wrap occurs
(last_hash_at + 60 within i64 range, buffer_seconds below 2^63, now nonnegative),
get_cutoff returns max(last_hash_at + 60 - buffer_seconds - now, 0); the result is
always nonnegative by construction and is monotonically non-increasing as now
increases. At extreme inputs the saturating arithmetic makes the exact formula
fail (see the counterexample). -/
theorem getCutoff_spec (lastHashAt : Int) (bufferTime : Nat) (now now2 : Int)
    (h1 : -9223372036854775808 ≤ lastHashAt)
    (h2 : lastHashAt + 60 ≤ 9223372036854775807)
    (h3 : bufferTime < 9223372036854775808)
    (h4 : 0 ≤ now) (h5 : now ≤ now2) :
    getCutoff lastHashAt bufferTime now
      = (max (lastHashAt + 60 - bufferTime - now) 0).toNat
    ∧ getCutoff lastHashAt bufferTime now2 ≤ getCutoff lastHashAt bufferTime now := by
  constructor
  · simp only [getCutoff, satSubI64, satAddI64, u64AsI64, I64MAXi, I64MINi]
    omega
  · exact getCutoff_antitone_in_now lastHashAt bufferTime now now2 h5

/-- Claim C3 witness: the amended statement evaluated at last_hash_at = 100,
buffer_seconds = 5, now = 30 and now2 = 40. -/
theorem getCutoff_spec_witness :
    getCutoff 100 5 30 = (max ((100 : Int) + 60 - (5 : Nat) - 30) 0).toNat
    ∧ getCutoff 100 5 40 ≤ getCutoff 100 5 30 :=
  getCutoff_spec 100 5 30 40 (by decide) (by decide) (by decide) (by decide) (by decide)

/-- Claim C3 counterexample: at last_hash_at = i64::MAX, buffer_seconds = 0,
now = 60, the saturating add clamps last_hash_at + 60 to i64::MAX, so get_cutoff
returns i64::MAX - 60 while the claimed formula max(last_hash_at + 60 - buffer - now, 0)
gives i64::MAX. -/
theorem getCutoff_claim_counterexample :
    getCutoff 9223372036854775807 0 60
      ≠ (max ((9223372036854775807 : Int) + 60 - (0 : Nat) - 60) 0).toNat := by
  decide

/-- Generic fueled search loop: starting at index i, return the first index at
which the break predicate holds, or none when the fuel runs out. This models
the unbounded `loop { ...; if cond { break/return } }` patterns of the source;
the fuel is an artifact of totalization, not of the code. -/
def loopFirst (P : Nat → Bool) : Nat → Nat → Option Nat
  | 0, _ => none
  | fuel + 1, i => if P i then some i else loopFirst P fuel (i + 1)

theorem loopFirst_some (P : Nat → Bool) (fuel i k : Nat)
    (h : loopFirst P fuel i = some k) :
    i ≤ k ∧ k < i + fuel ∧ P k = true ∧ ∀ j, i ≤ j → j < k → P j = false := by
  induction fuel generalizing i with
  | zero => simp [loopFirst] at h
  | succ m ih =>
    simp only [loopFirst] at h
    by_cases hp : P i = true
    · rw [if_pos hp] at h
      obtain rfl : i = k := by simpa using h
      exact ⟨Nat.le_refl _, by omega, hp, fun j h1 h2 => absurd h1 (by omega)⟩
    · rw [if_neg hp] at h
      obtain ⟨h1, h2, h3, h4⟩ := ih (i + 1) h
      refine ⟨by omega, by omega, h3, ?_⟩
      intro j hj1 hj2
      rcases Nat.eq_or_lt_of_le hj1 with hEq | hlt
      · subst hEq
        exact Bool.eq_false_iff.mpr hp
      · exact h4 j hlt hj2

theorem loopFirst_none (P : Nat → Bool) (fuel i : Nat)
    (h : ∀ j, P j = false) : loopFirst P fuel i = none := by
  induction fuel generalizing i with
  | zero => rfl
  | succ m ih => simp [loopFirst, h i, ih]

/-- Start nonce of worker i of n (src/mine.rs):
`u64::MAX.saturating_div(n).saturating_mul(i)`. -/
def nonceStart (n i : Nat) : Nat := satMulU64 (satDivU64 U64MAX n) i

/-- Nonce a worker evaluates at its k-th loop iteration: the worker increments
its nonce by one every iteration, with wrapping u64 arithmetic and no upper
range bound in the source. -/
def nonceAt (n i k : Nat) : Nat := (nonceStart n i + k) % U64MOD

/-- The per-iteration exit decision of the worker loops of
find_hash_par_cores / find_hash_par_threads (src/mine.rs): evaluated only when
`nonce % checkpoint_step == 0`; the loop then breaks when the elapsed time has
reached cutoff_time and either the shared best difficulty meets the expected
minimum or the elapsed time has also reached
`cutoff_time.saturating_add(risk_time)`. -/
def checkpointBreaks (step cutoff risk minDiff nonce elapsed globalBest : Nat) : Bool :=
  if nonce % step == 0 then
    if cutoff ≤ elapsed then
      if minDiff ≤ globalBest then true
      else if satAddU64 cutoff risk ≤ elapsed then true
      else false
    else false
  else false

theorem checkpointBreaks_iff (step cutoff risk minDiff nonce elapsed globalBest : Nat) :
    checkpointBreaks step cutoff risk minDiff nonce elapsed globalBest = true ↔
      (nonce % step = 0 ∧ cutoff ≤ elapsed ∧
        (minDiff ≤ globalBest ∨ satAddU64 cutoff risk ≤ elapsed)) := by
  by_cases h1 : nonce % step = 0 <;> by_cases h2 : cutoff ≤ elapsed <;>
    by_cases h3 : minDiff ≤ globalBest <;>
    by_cases h4 : satAddU64 cutoff risk ≤ elapsed <;>
    simp [checkpointBreaks, h1, h2, h3, h4]

/-- One worker's search loop viewed through its termination decisions:
`elapsedAt k` is the timer reading and `globalAt k` the shared best difficulty
read at iteration k; the loop exits at the first iteration whose checkpoint
decision breaks. -/
def workerRun (step cutoff risk minDiff n i : Nat)
    (elapsedAt globalAt : Nat → Nat) (fuel : Nat) : Option Nat :=
  loopFirst
    (fun k => checkpointBreaks step cutoff risk minDiff (nonceAt n i k) (elapsedAt k) (globalAt k))
    fuel 0

/-- Claim C2: a worker's search loop terminates only at checkpoints
(nonce % checkpoint_step == 0), by the four-case policy: it never breaks with
elapsed < cutoff; at exit, either the shared best difficulty met the expected
minimum (case b) or elapsed reached cutoff + risk (case d); at every earlier
checkpoint either elapsed < cutoff (case a) or the minimum was unmet and
elapsed < cutoff + risk (case c). Consequently the exit time is at least
cutoff and the loop never continues past a checkpoint whose elapsed time
reached cutoff + risk. -/
theorem worker_termination_policy (step cutoff risk minDiff n i : Nat)
    (elapsedAt globalAt : Nat → Nat) (fuel k : Nat)
    (hrange : cutoff + risk ≤ U64MAX)
    (hexit : workerRun step cutoff risk minDiff n i elapsedAt globalAt fuel = some k) :
    (nonceAt n i k % step = 0 ∧ cutoff ≤ elapsedAt k
      ∧ (minDiff ≤ globalAt k ∨ cutoff + risk ≤ elapsedAt k))
    ∧ (∀ j, j < k → nonceAt n i j % step = 0 →
        elapsedAt j < cutoff ∨ (globalAt j < minDiff ∧ elapsedAt j < cutoff + risk))
    ∧ (∀ j, nonceAt n i j % step = 0 → cutoff + risk ≤ elapsedAt j → k ≤ j) := by
  obtain ⟨-, -, hPk, hprev⟩ := loopFirst_some _ fuel 0 k hexit
  have hsat : satAddU64 cutoff risk = cutoff + risk := min_eq_left hrange
  have hPk2 : checkpointBreaks step cutoff risk minDiff (nonceAt n i k) (elapsedAt k)
      (globalAt k) = true := hPk
  rw [checkpointBreaks_iff, hsat] at hPk2
  have h2 : ∀ j, j < k → nonceAt n i j % step = 0 →
      elapsedAt j < cutoff ∨ (globalAt j < minDiff ∧ elapsedAt j < cutoff + risk) := by
    intro j hj hcp
    have hfalse : checkpointBreaks step cutoff risk minDiff (nonceAt n i j) (elapsedAt j)
        (globalAt j) = false := hprev j (Nat.zero_le j) hj
    have hnb : ¬ (nonceAt n i j % step = 0 ∧ cutoff ≤ elapsedAt j ∧
        (minDiff ≤ globalAt j ∨ cutoff + risk ≤ elapsedAt j)) := by
      intro hx
      rw [← hsat] at hx
      have htrue := (checkpointBreaks_iff step cutoff risk minDiff (nonceAt n i j)
        (elapsedAt j) (globalAt j)).mpr hx
      rw [hfalse] at htrue
      exact Bool.false_ne_true htrue
    by_cases hB : cutoff ≤ elapsedAt j
    · refine Or.inr ⟨?_, ?_⟩
      · by_contra hC
        exact hnb ⟨hcp, hB, Or.inl (le_of_not_lt hC)⟩
      · by_contra hD
        exact hnb ⟨hcp, hB, Or.inr (le_of_not_lt hD)⟩
    · exact Or.inl (lt_of_not_le hB)
  refine ⟨hPk2, h2, ?_⟩
  intro j hcp hrisk
  by_contra hjk
  push_neg at hjk
  rcases h2 j hjk hcp with h | ⟨-, h⟩ <;> omega

/-- Claim C2 witness: a concrete run with checkpoint step 2, cutoff 3,
risk time 2, expected minimum difficulty 5, a shared best difficulty that
never reaches it and one-second iterations exits at iteration 6, the first
checkpoint at or past cutoff + risk. -/
theorem worker_termination_policy_witness :
    (nonceAt 1 0 6 % 2 = 0 ∧ 3 ≤ (fun k : Nat => k) 6
      ∧ (5 ≤ (fun _ : Nat => 0) 6 ∨ 3 + 2 ≤ (fun k : Nat => k) 6))
    ∧ (∀ j, j < 6 → nonceAt 1 0 j % 2 = 0 →
        (fun k : Nat => k) j < 3 ∨ ((fun _ : Nat => 0) j < 5 ∧ (fun k : Nat => k) j < 3 + 2))
    ∧ (∀ j, nonceAt 1 0 j % 2 = 0 → 3 + 2 ≤ (fun k : Nat => k) j → 6 ≤ j) :=
  worker_termination_policy 2 3 2 5 1 0 (fun k => k) (fun _ => 0) 10 6
    (by decide) (by decide)

/-- Worker i of n evaluates nonce v at iteration k of a run driven by the given
oracles: the loop has not broken at any earlier iteration, and the worker's
nonce at iteration k is v. -/
def evaluatesNonce (step cutoff risk minDiff n i : Nat)
    (elapsedAt globalAt : Nat → Nat) (k v : Nat) : Prop :=
  (∀ j, j < k → checkpointBreaks step cutoff risk minDiff (nonceAt n i j) (elapsedAt j)
      (globalAt j) = false)
  ∧ nonceAt n i k = v

/-- Claim C4 (amended): worker i of n starts at nonce i * (u64::MAX / n), and
provided every worker performs at most u64::MAX / n iterations, no two distinct
workers evaluate the same nonce. The source places no upper end on a worker's
nonce range — each worker increments its nonce indefinitely until its own time
checkpoint breaks — so the disjointness bound is a property of bounded runs,
not one enforced by the code (see the counterexample). -/
theorem nonce_partition (n i j ki kj : Nat) (hn : 0 < n)
    (hi : i < n) (hj : j < n) (hne : i ≠ j)
    (hki : ki < U64MAX / n) (hkj : kj < U64MAX / n) :
    nonceStart n i = U64MAX / n * i
    ∧ nonceAt n i ki ≠ nonceAt n j kj := by
  have hq : U64MAX / n * n ≤ U64MAX := Nat.div_mul_le_self _ _
  have hstart : ∀ m, m < n → nonceStart n m = U64MAX / n * m := by
    intro m hm
    have h1 : U64MAX / n * m ≤ U64MAX / n * n :=
      Nat.mul_le_mul_left _ (Nat.le_of_lt hm)
    simp only [nonceStart, satMulU64, satDivU64]
    exact min_eq_left (le_trans h1 hq)
  have key : ∀ a b ka, a < b → b < n → ka < U64MAX / n →
      U64MAX / n * a + ka < U64MAX / n * b := by
    intro a b ka hab hbn hka
    calc U64MAX / n * a + ka < U64MAX / n * a + U64MAX / n := by omega
      _ = U64MAX / n * (a + 1) := by ring
      _ ≤ U64MAX / n * b := Nat.mul_le_mul_left _ hab
  have hval : ∀ m km, m < n → km < U64MAX / n →
      nonceAt n m km = U64MAX / n * m + km := by
    intro m km hm hkm
    have hlt : U64MAX / n * m + km < U64MOD := by
      have h1 : U64MAX / n * (m + 1) ≤ U64MAX / n * n :=
        Nat.mul_le_mul_left _ hm
      have h2 : U64MAX / n * m + km < U64MAX / n * (m + 1) := by
        have : U64MAX / n * (m + 1) = U64MAX / n * m + U64MAX / n := by ring
        omega
      have h3 : U64MAX < U64MOD := by decide
      omega
    simp only [nonceAt, hstart m hm]
    exact Nat.mod_eq_of_lt hlt
  refine ⟨hstart i hi, ?_⟩
  rw [hval i ki hi hki, hval j kj hj hkj]
  rcases Nat.lt_or_ge i j with hij | hge
  · exact Nat.ne_of_lt (by have := key i j ki hij hj hki; omega)
  · have hji : j < i := lt_of_le_of_ne hge (Ne.symm hne)
    exact (Nat.ne_of_lt (by have := key j i kj hji hi hkj; omega)).symm

/-- Claim C4 witness: with 2 workers, worker 0 starting at nonce 0 and worker 1
at u64::MAX / 2, iterations 5 and 7 respectively land on distinct nonces. -/
theorem nonce_partition_witness :
    nonceStart 2 0 = U64MAX / 2 * 0 ∧ nonceAt 2 0 5 ≠ nonceAt 2 1 7 :=
  nonce_partition 2 0 1 5 7 (by decide) (by decide) (by decide) (by decide)
    (by decide) (by decide)

/-- Claim C4 counterexample: the workers' ranges have no enforced upper end, so
in a run whose cutoff is never reached (here the timer oracle always reads 0
against cutoff 1) worker 0 of 2 evaluates, at iteration u64::MAX / 2, the very
nonce u64::MAX / 2 = 9223372036854775807 that worker 1 evaluates at its first
iteration: two distinct workers evaluate the same nonce. -/
theorem nonce_partition_counterexample :
    ∃ v, evaluatesNonce 1 1 0 1 2 0 (fun _ => 0) (fun _ => 0) 9223372036854775807 v
      ∧ evaluatesNonce 1 1 0 1 2 1 (fun _ => 0) (fun _ => 0) 0 v := by
  refine ⟨9223372036854775807, ⟨?_, by decide⟩, ⟨?_, by decide⟩⟩
  · intro j hj
    simp [checkpointBreaks, Nat.mod_one]
  · intro j hj
    exact absurd hj (Nat.not_lt_zero j)

/-- Strict-improvement fold: keep the current best, replacing it only when a
candidate's score is strictly greater. This is the shape of the join reduction
in find_hash_par_cores / find_hash_par_threads (src/mine.rs). -/
def argmaxFold {A : Type} (score : A → Nat) (init : A) (l : List A) : A :=
  l.foldl (fun best r => if score best < score r then r else best) init

theorem argmaxFold_spec {A : Type} (score : A → Nat) (init : A) (l : List A) :
    (argmaxFold score init l = init ∧ ∀ r ∈ l, score r ≤ score init)
    ∨ ∃ i, ∃ hi : i < l.length,
        argmaxFold score init l = l.get ⟨i, hi⟩
        ∧ score init < score (l.get ⟨i, hi⟩)
        ∧ (∀ r ∈ l, score r ≤ score (l.get ⟨i, hi⟩))
        ∧ ∀ j, ∀ hj : j < l.length, j < i →
            score (l.get ⟨j, hj⟩) < score (l.get ⟨i, hi⟩) := by
  induction l generalizing init with
  | nil =>
    left
    exact ⟨rfl, fun r hr => absurd hr (List.not_mem_nil r)⟩
  | cons a tl ih =>
    have hstep : argmaxFold score init (a :: tl)
        = argmaxFold score (if score init < score a then a else init) tl := rfl
    by_cases h : score init < score a
    · rw [hstep, if_pos h]
      rcases ih a with ⟨heq, hall⟩ | ⟨i, hi, heq, hgt, hall, hfirst⟩
      · right
        refine ⟨0, Nat.succ_pos _, heq, h, ?_, ?_⟩
        · intro r hr
          rcases List.mem_cons.mp hr with hr1 | hr2
          · subst hr1; exact Nat.le_refl _
          · exact hall r hr2
        · intro j hj hj0
          exact absurd hj0 (Nat.not_lt_zero j)
      · right
        refine ⟨i + 1, Nat.succ_lt_succ hi, heq, lt_trans h hgt, ?_, ?_⟩
        · intro r hr
          rcases List.mem_cons.mp hr with hr1 | hr2
          · subst hr1; exact le_of_lt hgt
          · exact hall r hr2
        · intro j hj hji
          cases j with
          | zero => exact hgt
          | succ j2 =>
            exact hfirst j2 (Nat.lt_of_succ_lt_succ hj) (Nat.lt_of_succ_lt_succ hji)
    · rw [hstep, if_neg h]
      rcases ih init with ⟨heq, hall⟩ | ⟨i, hi, heq, hgt, hall, hfirst⟩
      · left
        refine ⟨heq, ?_⟩
        intro r hr
        rcases List.mem_cons.mp hr with hr1 | hr2
        · subst hr1; exact le_of_not_lt h
        · exact hall r hr2
      · right
        refine ⟨i + 1, Nat.succ_lt_succ hi, heq, hgt, ?_, ?_⟩
        · intro r hr
          rcases List.mem_cons.mp hr with hr1 | hr2
          · subst hr1; exact le_of_lt (lt_of_le_of_lt (le_of_not_lt h) hgt)
          · exact hall r hr2
        · intro j hj hji
          cases j with
          | zero => exact lt_of_le_of_lt (le_of_not_lt h) hgt
          | succ j2 =>
            exact hfirst j2 (Nat.lt_of_succ_lt_succ hj) (Nat.lt_of_succ_lt_succ hji)

/-- Join reduction of find_hash_par_cores / find_hash_par_threads (src/mine.rs):
fold the successfully joined per-worker (best_nonce, best_difficulty, best_hash)
results over the initial best (0, 0, Hash::default()), replacing the running
best exactly when a result's difficulty strictly exceeds it. The opaque drillx
hash is the type parameter H, with `default` standing for Hash::default(). -/
def joinBest (H : Type) [Inhabited H] (results : List (Nat × Nat × H)) : Nat × Nat × H :=
  results.foldl (fun best r => if best.2.1 < r.2.1 then r else best) (0, 0, default)

/-- The Solution returned by the search engine:
`Solution::new(best_hash.d, best_nonce.to_le_bytes())`, modelled as the winning
hash value paired with the winning nonce. -/
structure SolutionM (H : Type) where
  d : H
  nonce : Nat
deriving DecidableEq

/-- Tail of find_hash_par_cores / find_hash_par_threads after the workers are
joined: reduce the join results and build the Solution from the best hash and
best nonce. -/
def findHashParJoin (H : Type) [Inhabited H] (results : List (Nat × Nat × H)) :
    SolutionM H :=
  ⟨(joinBest H results).2.2, (joinBest H results).1⟩

/-- Claim C1 (amended): whenever some joined result carries positive
difficulty, the engine returns the Solution built from exactly the
first-encountered maximum-difficulty entry in join order; strict improvement
makes earlier entries win ties. When every joined difficulty is zero, the fold
keeps its initial (0, 0, Hash::default()) triple instead of an entry of the
list (see the counterexample, and claim C9). -/
theorem join_selects_first_max (H : Type) [Inhabited H]
    (results : List (Nat × Nat × H)) (hpos : ∃ r ∈ results, 0 < r.2.1) :
    ∃ i, ∃ hi : i < results.length,
      joinBest H results = results.get ⟨i, hi⟩
      ∧ findHashParJoin H results
          = ⟨(results.get ⟨i, hi⟩).2.2, (results.get ⟨i, hi⟩).1⟩
      ∧ (∀ r ∈ results, r.2.1 ≤ (results.get ⟨i, hi⟩).2.1)
      ∧ ∀ j, ∀ hj : j < results.length, j < i →
          (results.get ⟨j, hj⟩).2.1 < (results.get ⟨i, hi⟩).2.1 := by
  have hEq : joinBest H results
      = argmaxFold (fun r => r.2.1) ((0, 0, default) : Nat × Nat × H) results := rfl
  rcases argmaxFold_spec (fun r => r.2.1) ((0, 0, default) : Nat × Nat × H) results with
    ⟨heq, hall⟩ | ⟨i, hi, heq, hgt, hall, hfirst⟩
  · exfalso
    obtain ⟨r, hr, hrpos⟩ := hpos
    have hle : r.2.1 ≤ 0 := hall r hr
    omega
  · refine ⟨i, hi, hEq.trans heq, ?_, hall, hfirst⟩
    simp only [findHashParJoin, hEq.trans heq]

/-- Claim C1 witness: on joined results [(10, 3, 7), (20, 5, 8), (30, 5, 9)]
(nonce, difficulty, hash) the engine picks index 1, the first of the two
entries tied at the maximum difficulty 5. -/
theorem join_selects_first_max_witness :
    ∃ i, ∃ hi : i < ([(10, 3, 7), (20, 5, 8), (30, 5, 9)] : List (Nat × Nat × Nat)).length,
      joinBest Nat [(10, 3, 7), (20, 5, 8), (30, 5, 9)]
          = ([(10, 3, 7), (20, 5, 8), (30, 5, 9)] : List (Nat × Nat × Nat)).get ⟨i, hi⟩
      ∧ findHashParJoin Nat [(10, 3, 7), (20, 5, 8), (30, 5, 9)]
          = ⟨(([(10, 3, 7), (20, 5, 8), (30, 5, 9)] : List (Nat × Nat × Nat)).get ⟨i, hi⟩).2.2,
             (([(10, 3, 7), (20, 5, 8), (30, 5, 9)] : List (Nat × Nat × Nat)).get ⟨i, hi⟩).1⟩
      ∧ (∀ r ∈ ([(10, 3, 7), (20, 5, 8), (30, 5, 9)] : List (Nat × Nat × Nat)),
          r.2.1 ≤ (([(10, 3, 7), (20, 5, 8), (30, 5, 9)] : List (Nat × Nat × Nat)).get ⟨i, hi⟩).2.1)
      ∧ ∀ j, ∀ hj : j < ([(10, 3, 7), (20, 5, 8), (30, 5, 9)] : List (Nat × Nat × Nat)).length,
          j < i →
          (([(10, 3, 7), (20, 5, 8), (30, 5, 9)] : List (Nat × Nat × Nat)).get ⟨j, hj⟩).2.1
            < (([(10, 3, 7), (20, 5, 8), (30, 5, 9)] : List (Nat × Nat × Nat)).get ⟨i, hi⟩).2.1 :=
  join_selects_first_max Nat [(10, 3, 7), (20, 5, 8), (30, 5, 9)]
    ⟨(20, 5, 8), by decide, by decide⟩

/-- Claim C1 counterexample: a worker whose range start is u64::MAX / 2 and
which never improves on difficulty 0 genuinely returns
(9223372036854775807, 0, Hash::default()); when it is the only joined result
(e.g. the other join failed), the fold returns its untouched initial triple
(0, 0, Hash::default()), which is not an entry of the result list — the claim's
"the entry with the maximum difficulty" does not hold for this list. -/
theorem join_selects_max_counterexample :
    joinBest Nat [(9223372036854775807, 0, 0)]
      ∉ ([(9223372036854775807, 0, 0)] : List (Nat × Nat × Nat)) := by
  decide

/-- Claim C9: when every joined worker result has difficulty 0 — disabled core
slots, failed joins (absent from the list, including all of them), or no hash
improving on difficulty 0 — the engine still returns a Solution, built from
nonce 0 and the default hash; the join reduction is total, with no error
branch. -/
theorem join_all_zero_default (H : Type) [Inhabited H]
    (results : List (Nat × Nat × H)) (hz : ∀ r ∈ results, r.2.1 = 0) :
    findHashParJoin H results = ⟨default, 0⟩
    ∧ joinBest H results = (0, 0, default) := by
  have hEq : joinBest H results
      = argmaxFold (fun r => r.2.1) ((0, 0, default) : Nat × Nat × H) results := rfl
  rcases argmaxFold_spec (fun r => r.2.1) ((0, 0, default) : Nat × Nat × H) results with
    ⟨heq, hall⟩ | ⟨i, hi, heq, hgt, hall, hfirst⟩
  · have hbest : joinBest H results = (0, 0, default) := hEq.trans heq
    exact ⟨by simp only [findHashParJoin, hbest], hbest⟩
  · exfalso
    have hmem := List.get_mem results i hi
    have hzero := hz (results.get ⟨i, hi⟩) hmem
    have hgt2 : 0 < (results.get ⟨i, hi⟩).2.1 := hgt
    omega

/-- Claim C9 witness: two difficulty-0 worker results, one from a disabled core
slot and one from a worker that found nothing, yield the default Solution
(nonce 0, default hash). -/
theorem join_all_zero_default_witness :
    findHashParJoin Nat [(0, 0, 0), (42, 0, 6)] = ⟨0, 0⟩
    ∧ joinBest Nat [(0, 0, 0), (42, 0, 6)] = (0, 0, 0) :=
  join_all_zero_default Nat [(0, 0, 0), (42, 0, 6)] (by decide)

/-- An on-chain bus (distribution channel) account: its id and rewards balance
(layout external, fields as used by src/mine.rs and src/busses.rs). -/
structure Bus where
  id : Nat
  rewards : Nat
deriving DecidableEq

/-- One step of the find_bus scan (src/mine.rs): absent or unparseable
accounts are skipped; the running (top_bus_balance, top_bus) pair is replaced
exactly when bus.rewards strictly exceeds the running balance. -/
def findBusStep (st : Nat × Nat) (acc : Option Bus) : Nat × Nat :=
  match acc with
  | some bus => if st.1 < bus.rewards then (bus.rewards, bus.id) else st
  | none => st

/-- Embedding of `Miner::find_bus` (src/mine.rs): scan the fetched batch with
top_bus_balance starting at 0 and top_bus starting at BUS_ADDRESSES[0]; return
the id used to index BUS_ADDRESSES for the selected bus. -/
def findBus (accounts : List (Option Bus)) : Nat :=
  (accounts.foldl findBusStep (0, 0)).2

/-- A well-formed fetched batch: the account at position k onward is present
and carries its positional id, as the fixed BUS_ADDRESSES batch does on-chain. -/
def positionalBatch (k : Nat) : List Nat → List (Option Bus)
  | [] => []
  | r :: rs => some ⟨k, r⟩ :: positionalBatch (k + 1) rs

/-- Reference recursion for the find_bus scan over a positional batch. -/
def selectFrom (b j k : Nat) : List Nat → Nat × Nat
  | [] => (b, j)
  | r :: rs => if b < r then selectFrom r k (k + 1) rs else selectFrom b j (k + 1) rs

theorem findBus_positional_eq (rs : List Nat) (b j k : Nat) :
    (positionalBatch k rs).foldl findBusStep (b, j) = selectFrom b j k rs := by
  induction rs generalizing b j k with
  | nil => rfl
  | cons r rs ih =>
    by_cases hbr : b < r <;>
      simp [positionalBatch, selectFrom, findBusStep, hbr, ih]

theorem selectFrom_spec (rs : List Nat) (b j k : Nat) :
    b ≤ (selectFrom b j k rs).1
    ∧ (∀ m, m < rs.length → rs.getD m 0 ≤ (selectFrom b j k rs).1)
    ∧ (((selectFrom b j k rs).1 = b ∧ (selectFrom b j k rs).2 = j)
       ∨ ∃ m, m < rs.length
           ∧ (selectFrom b j k rs).1 = rs.getD m 0
           ∧ (selectFrom b j k rs).2 = k + m
           ∧ b < (selectFrom b j k rs).1
           ∧ ∀ m2, m2 < m → rs.getD m2 0 < (selectFrom b j k rs).1) := by
  induction rs generalizing b j k with
  | nil =>
    refine ⟨Nat.le_refl _, ?_, Or.inl ⟨rfl, rfl⟩⟩
    intro m hm
    exact absurd hm (by simp)
  | cons r rs ih =>
    by_cases hbr : b < r
    · have hsel : selectFrom b j k (r :: rs) = selectFrom r k (k + 1) rs := by
        simp [selectFrom, hbr]
      obtain ⟨h1, h2, h3⟩ := ih r k (k + 1)
      rw [hsel]
      refine ⟨le_trans (le_of_lt hbr) h1, ?_, ?_⟩
      · intro m hm
        cases m with
        | zero => simpa using h1
        | succ m2 => simpa using h2 m2 (Nat.lt_of_succ_lt_succ hm)
      · rcases h3 with ⟨hB, hJ⟩ | ⟨m, hm, hB, hJ, hlt, hfirst⟩
        · right
          refine ⟨0, Nat.succ_pos _, by simpa using hB, by omega, by omega, ?_⟩
          intro m2 hm2
          exact absurd hm2 (Nat.not_lt_zero m2)
        · right
          refine ⟨m + 1, Nat.succ_lt_succ hm, by simpa using hB, by omega,
            lt_trans hbr hlt, ?_⟩
          intro m2 hm2
          cases m2 with
          | zero => simpa using hlt
          | succ m3 => simpa using hfirst m3 (Nat.lt_of_succ_lt_succ hm2)
    · have hsel : selectFrom b j k (r :: rs) = selectFrom b j (k + 1) rs := by
        simp [selectFrom, hbr]
      obtain ⟨h1, h2, h3⟩ := ih b j (k + 1)
      rw [hsel]
      refine ⟨h1, ?_, ?_⟩
      · intro m hm
        cases m with
        | zero => simpa using le_trans (le_of_not_lt hbr) h1
        | succ m2 => simpa using h2 m2 (Nat.lt_of_succ_lt_succ hm)
      · rcases h3 with ⟨hB, hJ⟩ | ⟨m, hm, hB, hJ, hlt, hfirst⟩
        · exact Or.inl ⟨hB, hJ⟩
        · right
          refine ⟨m + 1, Nat.succ_lt_succ hm, by simpa using hB, by omega,
            hlt, ?_⟩
          intro m2 hm2
          cases m2 with
          | zero => simpa using lt_of_le_of_lt (le_of_not_lt hbr) hlt
          | succ m3 => simpa using hfirst m3 (Nat.lt_of_succ_lt_succ hm2)

/-- Claim C5: on a successfully fetched, well-formed batch (each candidate
account present with its positional id), find_bus returns the id of a channel
whose rewards balance is maximal, and among channels tied at the maximum it
returns the lowest id. -/
theorem findBus_selects_max (rs : List Nat) (hne : rs ≠ []) :
    findBus (positionalBatch 0 rs) < rs.length
    ∧ (∀ m, m < rs.length →
        rs.getD m 0 ≤ rs.getD (findBus (positionalBatch 0 rs)) 0)
    ∧ (∀ m, m < rs.length →
        rs.getD m 0 = rs.getD (findBus (positionalBatch 0 rs)) 0 →
        findBus (positionalBatch 0 rs) ≤ m) := by
  have hfb : findBus (positionalBatch 0 rs) = (selectFrom 0 0 0 rs).2 := by
    unfold findBus
    rw [findBus_positional_eq]
  obtain ⟨h1, h2, h3⟩ := selectFrom_spec rs 0 0 0
  have hlen : 0 < rs.length := List.length_pos.mpr hne
  rcases h3 with ⟨hB, hJ⟩ | ⟨m, hm, hB, hJ, hlt, hfirst⟩
  · rw [hfb, hJ]
    refine ⟨hlen, ?_, ?_⟩
    · intro m hm
      have hmB := h2 m hm
      have h0B := h2 0 hlen
      omega
    · intro m hm hEq
      exact Nat.zero_le m
  · have hJm : (selectFrom 0 0 0 rs).2 = m := by omega
    rw [hfb, hJm]
    refine ⟨hm, ?_, ?_⟩
    · intro m2 hm2
      have := h2 m2 hm2
      omega
    · intro m2 hm2 hEq
      by_contra hmm
      push_neg at hmm
      have := hfirst m2 hmm
      omega

/-- Claim C5 witness: on the batch [{id 0, rewards 5}, {id 1, rewards 9},
{id 2, rewards 9}], find_bus picks id 1, the lowest id among the two channels
tied at the maximum rewards 9. -/
theorem findBus_selects_max_witness :
    (findBus (positionalBatch 0 [5, 9, 9]) < ([5, 9, 9] : List Nat).length
      ∧ (∀ m, m < ([5, 9, 9] : List Nat).length →
          ([5, 9, 9] : List Nat).getD m 0
            ≤ ([5, 9, 9] : List Nat).getD (findBus (positionalBatch 0 [5, 9, 9])) 0)
      ∧ (∀ m, m < ([5, 9, 9] : List Nat).length →
          ([5, 9, 9] : List Nat).getD m 0
            = ([5, 9, 9] : List Nat).getD (findBus (positionalBatch 0 [5, 9, 9])) 0 →
          findBus (positionalBatch 0 [5, 9, 9]) ≤ m))
    ∧ findBus (positionalBatch 0 [5, 9, 9]) = 1 :=
  ⟨findBus_selects_max [5, 9, 9] (by decide), by decide⟩

/-- Embedding of `Miner::dynamic_fee` (src/dynamic_fee.rs). `upstreamFee` is
the fee value parsed from the external service's response for the selected
strategy (the HTTP transport and JSON parsing are external); with no strategy,
or an unrecognized strategy string, the static `priority_fee.unwrap_or(0)` is
returned; a recognized strategy's fee is clamped with
`calculated_fee.min(max_fee)` only when `dynamic_fee_max` is configured. -/
def dynamicFee (strategy : Option String) (priorityFee : Option Nat)
    (upstreamFee : Nat) (dynamicFeeMax : Option Nat) : Nat :=
  match strategy with
  | none => priorityFee.getD 0
  | some s =>
    if s = "helius" then
      match dynamicFeeMax with
      | some maxFee => min upstreamFee maxFee
      | none => upstreamFee
    else if s = "triton" then
      match dynamicFeeMax with
      | some maxFee => min upstreamFee maxFee
      | none => upstreamFee
    else priorityFee.getD 0

/-- Claim C6: under either supported dynamic-fee strategy, whatever fee the
upstream service reports, the returned value never exceeds the configured cap. -/
theorem dynamicFee_capped (s : String) (priorityFee : Option Nat)
    (upstreamFee cap : Nat) (hs : s = "helius" ∨ s = "triton") :
    dynamicFee (some s) priorityFee upstreamFee (some cap) ≤ cap := by
  rcases hs with rfl | rfl <;> simp [dynamicFee]

/-- Claim C6 witness: an upstream-reported fee of 250000 under the helius
strategy is clamped to the cap 100000. -/
theorem dynamicFee_capped_witness :
    dynamicFee (some "helius") (some 10000) 250000 (some 100000) ≤ 100000 :=
  dynamicFee_capped "helius" (some 10000) 250000 100000 (Or.inl rfl)

/-- The mining loop of `Miner::mine` (src/mine.rs), viewed through its
per-cycle submission outcomes: each cycle ends in send_and_confirm; on Ok the
loop continues with the next cycle, on Err it returns immediately (comment:
"we need to exit loop to avoid hang-up"). The fueled model returns the index
of the cycle whose submission failed, or none while every submission succeeds. -/
def mineLoopRun (submitOk : Nat → Bool) (fuel : Nat) : Option Nat :=
  loopFirst (fun c => !submitOk c) fuel 0

/-- Exit status of the process around the mining loop (src/main.rs): when
`mine` returns after a failed submission, main's command match falls through
and main returns normally, so the process terminates with exit status 0. -/
def mineProcessExit (submitOk : Nat → Bool) (fuel : Nat) : Option Nat :=
  match mineLoopRun submitOk fuel with
  | some _ => some 0
  | none => none

theorem loopFirst_first (P : Nat → Bool) (fuel i k : Nat) (hik : i ≤ k)
    (h1 : ∀ j, i ≤ j → j < k → P j = false) (h2 : P k = true)
    (h3 : k < i + fuel) : loopFirst P fuel i = some k := by
  induction fuel generalizing i with
  | zero => omega
  | succ m ih =>
    simp only [loopFirst]
    rcases Nat.eq_or_lt_of_le hik with hEq | hlt
    · subst hEq
      rw [if_pos h2]
    · rw [if_neg (by rw [h1 i (Nat.le_refl i) hlt]; exact Bool.false_ne_true)]
      exact ih (i + 1) hlt (fun j hj1 hj2 => h1 j (by omega) hj2) (by omega)

/-- Claim C7 (amended): when the first submission failure happens at cycle k,
the mining loop terminates at exactly that cycle — earlier cycles all
succeeded and the failed cycle is not retried — and the process then ends,
with exit status 0 rather than the claimed non-zero outcome; when every
submission succeeds the loop runs indefinitely (no amount of fuel exhausts it
into an exit). -/
theorem mine_loop_first_failure (submitOk : Nat → Bool) (fuel k : Nat)
    (h1 : ∀ j, j < k → submitOk j = true) (h2 : submitOk k = false)
    (h3 : k < fuel) :
    mineLoopRun submitOk fuel = some k
    ∧ mineProcessExit submitOk fuel = some 0
    ∧ ∀ g : Nat → Bool, (∀ j, g j = true) → ∀ f2 : Nat, mineLoopRun g f2 = none := by
  have hrun : mineLoopRun submitOk fuel = some k := by
    unfold mineLoopRun
    refine loopFirst_first _ fuel 0 k (Nat.zero_le k) ?_ ?_ (by omega)
    · intro j hj1 hj2
      simp [h1 j hj2]
    · simp [h2]
  refine ⟨hrun, ?_, ?_⟩
  · unfold mineProcessExit
    rw [hrun]
  · intro g hg f2
    unfold mineLoopRun
    refine loopFirst_none _ f2 0 ?_
    intro j
    simp [hg j]

/-- Claim C7 witness: submissions succeed on cycles 0 and 1 and fail on
cycle 2; the loop exits at cycle 2 and the process ends with exit status 0. -/
theorem mine_loop_first_failure_witness :
    mineLoopRun (fun c => c < 2) 9 = some 2
    ∧ mineProcessExit (fun c => c < 2) 9 = some 0
    ∧ ∀ g : Nat → Bool, (∀ j, g j = true) → ∀ f2 : Nat, mineLoopRun g f2 = none :=
  mine_loop_first_failure (fun c => decide (c < 2)) 9 2
    (fun j hj => by simp; omega) (by decide) (by decide)

/-- Claim C7 counterexample: the claim's "the process ends with a non-zero
outcome" fails — after a failed submission `mine` simply returns, main's
command dispatch falls through, and the process exits with status 0: there is
no run of the modelled process that ends with a non-zero exit status. -/
theorem mine_exit_nonzero_counterexample :
    ¬ ∃ c, mineProcessExit (fun _ => false) 5 = some c ∧ c ≠ 0 := by
  decide

/-- A proof account record as used by the mining cycle: the fields the polled
loop inspects (last_hash_at, an i64 timestamp) plus the balance. -/
structure ProofRec where
  lastHashAt : Int
  balance : Nat
deriving DecidableEq

/-- Embedding of `get_updated_proof_with_authority` (src/utils.rs): repeatedly
fetch the proof record (attempt a reads `fetch a`), returning the first record
whose last_hash_at strictly exceeds the baseline, sleeping between attempts;
fueled model of the unbounded polling loop. -/
def getUpdatedProofRun (fetch : Nat → ProofRec) (baseline : Int) (fuel : Nat) :
    Option ProofRec :=
  match loopFirst (fun a => baseline < (fetch a).lastHashAt) fuel 0 with
  | some a => some (fetch a)
  | none => none

/-- Claim C8: whenever the polling loop returns a proof record p, its
last_hash_at strictly exceeds the baseline; moreover p is the record of the
first fetch attempt satisfying that condition — every earlier attempt saw a
stale record — so the mining cycle never proceeds with a stale challenge. -/
theorem getUpdatedProof_fresh (fetch : Nat → ProofRec) (baseline : Int)
    (fuel : Nat) (p : ProofRec)
    (h : getUpdatedProofRun fetch baseline fuel = some p) :
    baseline < p.lastHashAt
    ∧ ∃ a, a < fuel ∧ p = fetch a
        ∧ ∀ a2, a2 < a → (fetch a2).lastHashAt ≤ baseline := by
  unfold getUpdatedProofRun at h
  rcases hopt : loopFirst (fun a => decide (baseline < (fetch a).lastHashAt)) fuel 0
    with - | a
  · rw [hopt] at h
    exact absurd h (by simp)
  · rw [hopt] at h
    obtain rfl : fetch a = p := by simpa using h
    obtain ⟨-, hlt, hP, hprev⟩ := loopFirst_some _ fuel 0 a hopt
    refine ⟨by simpa using hP, a, by omega, rfl, ?_⟩
    intro a2 ha2
    have := hprev a2 (Nat.zero_le a2) ha2
    simpa using this

/-- Claim C8 witness: with a baseline of 7 and fetches returning timestamps
5, 5, 10, 10, ..., the loop returns the record of attempt 2, the first whose
timestamp exceeds the baseline. -/
theorem getUpdatedProof_fresh_witness :
    (7 : Int) < (ProofRec.mk 10 3).lastHashAt
    ∧ ∃ a, a < 6 ∧ ProofRec.mk 10 3 = (fun a => if a < 2 then ProofRec.mk 5 1 else ProofRec.mk 10 3) a
        ∧ ∀ a2, a2 < a →
          ((fun a => if a < 2 then ProofRec.mk 5 1 else ProofRec.mk 10 3) a2).lastHashAt ≤ 7 :=
  getUpdatedProof_fresh (fun a => if a < 2 then ProofRec.mk 5 1 else ProofRec.mk 10 3) 7 6
    (ProofRec.mk 10 3) (by decide)

/-- Binary exponent of the rounding step of `x as f64` for a u64 x: the number
of low bits rounded away, i.e. 0 below 2^53 and msb(x) - 52 above (u64 inputs
never exceed 2^64, hence the ladder stops at 11). -/
def f64Exp (x : Nat) : Nat :=
  if x < 2 ^ 53 then 0
  else if x < 2 ^ 54 then 1
  else if x < 2 ^ 55 then 2
  else if x < 2 ^ 56 then 3
  else if x < 2 ^ 57 then 4
  else if x < 2 ^ 58 then 5
  else if x < 2 ^ 59 then 6
  else if x < 2 ^ 60 then 7
  else if x < 2 ^ 61 then 8
  else if x < 2 ^ 62 then 9
  else if x < 2 ^ 63 then 10
  else 11

/-- Exact IEEE-754 binary64 value of `x as f64` for a u64 x: round to nearest,
ties to even, keeping 53 significant bits (u64 values cannot overflow f64).
Values below 2^53 are exactly representable; above, the low f64Exp x bits are
rounded away, so distinct u64 values can collapse to the same f64 value. -/
def f64OfU64 (x : Nat) : Nat :=
  if 2 * (x % 2 ^ f64Exp x) < 2 ^ f64Exp x then x / 2 ^ f64Exp x * 2 ^ f64Exp x
  else if 2 ^ f64Exp x < 2 * (x % 2 ^ f64Exp x) then (x / 2 ^ f64Exp x + 1) * 2 ^ f64Exp x
  else if x / 2 ^ f64Exp x % 2 = 0 then x / 2 ^ f64Exp x * 2 ^ f64Exp x
  else (x / 2 ^ f64Exp x + 1) * 2 ^ f64Exp x

/-- The rewards value the busses.rs find_bus compares:
`(bus.rewards as f64) / 10f64.powf(TOKEN_DECIMALS as f64)` with
TOKEN_DECIMALS = 11. The u64-to-f64 cast is the exact IEEE rounding f64OfU64;
the subsequent division by the fixed positive constant is modelled as exact
rational division — the real division's own rounding maps equal operands to
equal results, so any collapse exhibited at the cast survives it. -/
def busF64Rewards (r : Nat) : ℚ := (f64OfU64 r : ℚ) / 10 ^ 11

/-- Embedding of `Miner::find_bus` (src/busses.rs): scan BUS_ADDRESSES zipped
with the fetched accounts (addresses modelled by their position k), with
max_rewards starting at 0. and max_ore_bus at BUS_ADDRESSES[0]; a present,
parseable bus replaces the running pair exactly when its f64 rewards strictly
exceed the running maximum. -/
def findBusBussesGo (k : Nat) (st : ℚ × Nat) : List (Option Bus) → ℚ × Nat
  | [] => st
  | acc :: rest =>
    match acc with
    | some bus =>
      if st.1 < busF64Rewards bus.rewards then
        findBusBussesGo (k + 1) (busF64Rewards bus.rewards, k) rest
      else findBusBussesGo (k + 1) st rest
    | none => findBusBussesGo (k + 1) st rest

/-- The address index returned by the busses.rs find_bus scan. -/
def findBusBusses (accounts : List (Option Bus)) : Nat :=
  (findBusBussesGo 0 (0, 0) accounts).2

/-- Claim C5 counterexample: the busses.rs find_bus compares rewards after an
f64 conversion, and 9007199254740992 = 2^53 and 9007199254740993 = 2^53 + 1
round to the same binary64 value, so on the batch
[{id 0, rewards 2^53}, {id 1, rewards 2^53 + 1}] the strict > comparison never
fires for bus 1 and bus 0 is returned, although bus 1 holds the strictly
larger rewards balance: that cited implementation does not always return the
channel with maximal rewards. -/
theorem findBus_busses_counterexample :
    findBusBusses [some ⟨0, 9007199254740992⟩, some ⟨1, 9007199254740993⟩] = 0
    ∧ (9007199254740992 : Nat) < 9007199254740993
    ∧ f64OfU64 9007199254740993 = f64OfU64 9007199254740992 := by
  have hcast : f64OfU64 9007199254740993 = f64OfU64 9007199254740992 := by decide
  have hval : f64OfU64 9007199254740992 = 9007199254740992 := by decide
  have hpos : (0 : ℚ) < busF64Rewards 9007199254740992 := by
    rw [busF64Rewards, hval]
    norm_num
  have hnlt : ¬ busF64Rewards 9007199254740992 < busF64Rewards 9007199254740993 := by
    rw [busF64Rewards, busF64Rewards, hcast]
    exact lt_irrefl _
  refine ⟨?_, by decide, hcast⟩
  simp [findBusBusses, findBusBussesGo, hpos, hnlt]
